import Mathlib

/-!
# HareDB: a verification model of the encrypted key-value engine

This file shallowly embeds the HareDB engine (the asynchronous-worker
variant of `HareDB.ts`, plus its persistence worker `dbworker.ts` and the
older synchronous engine variant) and proves the spec's claims about it.

Strings are Lean `String`s; byte buffers are `List Nat`; the JS object used
as the in-memory index is an association list with JS-object insert/update
semantics; the worker is a fold over the FIFO instruction list the engine
posts.  The libsodium secretbox primitive is external library code and is
modelled from the spec (see `crypto_secretbox_easy` below).
-/

namespace HareSpec

/-! ## Decimal digits and the serialized byte-array form

`encrypt` returns `JSON.stringify(Array.from(encryptedBuffer))`, i.e. the
decimal numbers of the byte list joined by `,` inside `[` `]`; `decrypt`
starts with `Buffer.from(JSON.parse(value))`.  We embed that round trip:
`serializeBytes` renders the canonical form and `parseBytes` parses it. -/

/-- Value of a little-endian decimal digit list. -/
def ofRevDigits : List Nat → Nat
  | [] => 0
  | d :: rest => d + 10 * ofRevDigits rest

/-- Little-endian decimal digits of `n`, with explicit fuel (the fuel is
structural; `fuel ≥ n` is enough). -/
def revDigitsAux (fuel n : Nat) : List Nat :=
  match fuel, n with
  | _, 0 => []
  | 0, _ => []
  | f + 1, m + 1 => (m + 1) % 10 :: revDigitsAux f ((m + 1) / 10)

/-- The character of a single decimal digit. -/
def digitChar : Nat → Char
  | 0 => '0' | 1 => '1' | 2 => '2' | 3 => '3' | 4 => '4'
  | 5 => '5' | 6 => '6' | 7 => '7' | 8 => '8' | _ => '9'

/-- The decimal digit of a character. -/
def charDigit (c : Char) : Nat := c.toNat - 48

/-- Decimal representation of `n`, most significant digit first. -/
def natToChars (n : Nat) : List Char :=
  if n = 0 then ['0'] else ((revDigitsAux n n).map digitChar).reverse

/-- Numeric value of a most-significant-first decimal digit string. -/
def charsVal (cs : List Char) : Nat := ofRevDigits ((cs.map charDigit).reverse)

/-- The characters between the brackets: decimal numbers joined by `,`. -/
def innerChars : List Nat → List Char
  | [] => []
  | [n] => natToChars n
  | n :: rest => natToChars n ++ ',' :: innerChars rest

/-- `JSON.stringify(Array.from(buffer))`: `[` then comma-joined decimal
numbers then `]`. -/
def serializeBytes (l : List Nat) : String := ⟨'[' :: (innerChars l ++ [']'])⟩

/-- Parse `d+ (',' d+)* ']'` with nothing after the bracket. -/
def parseNumsAux (fuel : Nat) (cs : List Char) : Option (List Nat) :=
  match fuel with
  | 0 => none
  | fuel + 1 =>
    let digs := cs.takeWhile Char.isDigit
    let rest := cs.dropWhile Char.isDigit
    if digs.isEmpty then none
    else
      match rest with
      | [']'] => some [charsVal digs]
      | ',' :: rest2 => (parseNumsAux fuel rest2).map (charsVal digs :: ·)
      | _ => none

/-- Inverse of `serializeBytes` on canonical forms (the model of
`JSON.parse` followed by `Buffer.from` on a number array). -/
def parseBytes (s : String) : Option (List Nat) :=
  match s.data with
  | '[' :: rest =>
    if rest = [']'] then some []
    else parseNumsAux rest.length rest
  | _ => none

/-! ## The authenticated-encryption primitive

Modelled from the spec: `crypto_secretbox_easy` / `crypto_secretbox_open_easy`
are provided by the external `sodium-native` (libsodium) library, not by this
repository.  Per the spec's glossary — "Authenticated encryption: encryption
scheme producing ciphertext plus a tag that detects tampering or wrong-key
decryption" — we model an idealized authenticated cipher: the body is the
message masked by a keystream derived from key and nonce, and the tag binds
the key, the nonce and the body, so that altering any single byte of body or
tag, or decrypting under a different (equal-length) key, fails
authentication.  Byte-exact libsodium layout (16-byte MAC) is not modelled;
the engine treats ciphertexts as opaque, so only the algebra matters. -/

def NONCEBYTES : Nat := 24

def KEYBYTES : Nat := 32

/-- `Buffer.alloc(crypto_secretbox_NONCEBYTES)`: a zero-filled nonce. -/
def zeroNonce : List Nat := List.replicate NONCEBYTES 0

/-- Keystream masking of the message body (idealized stream cipher). -/
def maskBody (m n k : List Nat) : List Nat := m.map (· + (n.sum + k.sum))

/-- Inverse of `maskBody` on its image. -/
def unmaskBody (b n k : List Nat) : List Nat := b.map (· - (n.sum + k.sum))

/-- The authentication tag over key, nonce and (masked) body.  Idealized:
it determines all three up to the lengths, so single-byte tampering and
wrong-key decryption are always detected. -/
def tagOf (k n b : List Nat) : List Nat :=
  k.length :: (k ++ (n.length :: (n ++ b)))

/-- Modelled from the spec: authenticated encryption of `m` under nonce `n`
and key `k` — masked body followed by the tag. -/
def crypto_secretbox_easy (m n k : List Nat) : List Nat :=
  maskBody m n k ++ tagOf k n (maskBody m n k)

/-- Modelled from the spec: authenticated decryption.  Splits the
ciphertext into body and tag, recomputes the tag and fails closed on any
mismatch. -/
def crypto_secretbox_open_easy (c n k : List Nat) : Option (List Nat) :=
  let bl := (c.length - k.length - n.length - 2) / 2
  let b := c.take bl
  let t := c.drop bl
  if t = tagOf k n b then some (unmaskBody b n k) else none

/-! ## Strings as byte lists

`Buffer.from(string)` / `buffer.toString()`.  We model a character as its
code point; UTF-8 byte packing is invisible to every claim (the codec only
needs the conversion to be invertible). -/

def strToBytes (s : String) : List Nat := s.data.map Char.toNat

def bytesToStr (l : List Nat) : String := ⟨l.map Char.ofNat⟩

/-! ## The secret-key protection state and the codec

`SecureBuffer` protection (`sodium_mprotect_readonly` / `_noaccess` /
`_readwrite`).  `HareDB.encrypt` and `HareDB.decrypt` are translated with
the protection state threaded through: each briefly enables read-only
access around the primitive call and revokes it again — in `decrypt` the
revocation happens before the success test, so even a failing decryption
leaves the buffer at no-access. -/

inductive ProtState where
  | noAccess
  | readOnly
  | readWrite
deriving DecidableEq, Repr

inductive DBError where
  | decryptionError
  | parseError
deriving DecidableEq, Repr

/-- `HareDB.encrypt`: lock the plaintext buffer, allocate the output and the
all-zero nonce (`Buffer.alloc(crypto_secretbox_NONCEBYTES)`), enable
read-only key access, run the primitive, revoke access, serialize.  The
returned protection state is the one after the bracketed
readonly→noaccess transitions, i.e. no-access on every path. -/
def HareDB.encrypt (sk : List Nat) (value : String) (_st : ProtState) :
    String × ProtState :=
  (serializeBytes (crypto_secretbox_easy (strToBytes value) zeroNonce sk),
    ProtState.noAccess)

/-- `HareDB.decrypt`: parse the serialized byte array (`JSON.parse` /
`Buffer.from` — a parse failure throws before any key access, leaving the
protection state untouched), enable read-only key access, run the
primitive with the all-zero nonce, revoke access, then either return the
decoded string or throw. -/
def HareDB.decrypt (sk : List Nat) (value : String) (st : ProtState) :
    Except DBError String × ProtState :=
  match parseBytes value with
  | none => (Except.error DBError.parseError, st)
  | some encrypted =>
    match crypto_secretbox_open_easy encrypted zeroNonce sk with
    | some m => (Except.ok (bytesToStr m), ProtState.noAccess)
    | none => (Except.error DBError.decryptionError, ProtState.noAccess)

/-- The pure ciphertext of `encrypt` (the spec's `encryptField`). -/
def encryptField (sk : List Nat) (value : String) : String :=
  (HareDB.encrypt sk value ProtState.noAccess).1

/-- The pure result of `decrypt` (the spec's `decryptField`). -/
def decryptField (sk : List Nat) (value : String) : Except DBError String :=
  (HareDB.decrypt sk value ProtState.noAccess).1

/-! ## The in-memory index

`private kv: KeyValue` is a plain JS object (`this.kv = {}`) used as a
string-to-string dictionary, and plain objects carry `Object.prototype`:

- `key in kv` is true for an own entry, and also for an inherited
  `Object.prototype` property such as `toString` or `hasOwnProperty`;
- `kv[key] = value` creates or updates an own entry — except that
  assigning to `__proto__` invokes the inherited accessor, which for a
  string value is a silent no-op, so nothing is stored;
- `kv[key]` returns the own entry when present, else the inherited value
  (`Object.prototype` itself for `__proto__`, the built-in function for
  the other prototype names), else `undefined`.

Own entries are an association list with unique keys; the prototype chain
is modelled explicitly. -/

/-- Own-entry lookup (also the model of an SQL `SELECT` by primary key). -/
def ownGet : List (String × String) → String → Option String
  | [], _ => none
  | (ka, va) :: rest, k => if ka = k then some va else ownGet rest k

/-- Own-entry upsert: update in place if present, else append (also the
model of the worker's `INSERT OR REPLACE`). -/
def ownSet : List (String × String) → String → String → List (String × String)
  | [], k, v => [(k, v)]
  | (ka, va) :: rest, k, v =>
    if ka = k then (k, v) :: rest else (ka, va) :: ownSet rest k v

/-- Own-entry removal (also the model of the worker's SQL `DELETE`). -/
def ownDel : List (String × String) → String → List (String × String)
  | [], _ => []
  | (ka, va) :: rest, k =>
    if ka = k then ownDel rest k else (ka, va) :: ownDel rest k

/-- The property names every plain object inherits from
`Object.prototype`. -/
def protoProps : List String :=
  ["constructor", "hasOwnProperty", "isPrototypeOf", "propertyIsEnumerable",
   "toLocaleString", "toString", "valueOf", "__defineGetter__",
   "__defineSetter__", "__lookupGetter__", "__lookupSetter__", "__proto__"]

/-- A value read out of the object: an own string entry, an inherited
built-in function, or `Object.prototype` itself (the inherited
`__proto__`). -/
inductive JsValue where
  | jstr (s : String)
  | jfun (name : String)
  | jproto
deriving DecidableEq, Repr

/-- JS truthiness of a read value: the empty string is falsy; objects and
functions are truthy. -/
def jsTruthy : JsValue → Bool
  | JsValue.jstr s => !(s == "")
  | JsValue.jfun _ => true
  | JsValue.jproto => true

/-- The string coercion `JSON.parse` applies to a non-string argument. -/
def jsCoerce : JsValue → String
  | JsValue.jstr s => s
  | JsValue.jproto => "[object Object]"
  | JsValue.jfun name => "function " ++ name ++ "() \x7b [native code] \x7d"

/-- `this.kv[key]`: own entry first, then the prototype chain. -/
def kvGet (kv : List (String × String)) (k : String) : Option JsValue :=
  match ownGet kv k with
  | some v => some (JsValue.jstr v)
  | none =>
    if k = "__proto__" then some JsValue.jproto
    else if protoProps.contains k then some (JsValue.jfun k) else none

/-- `key in this.kv`: an own entry or an inherited `Object.prototype`
property. -/
def kvHas (kv : List (String × String)) (k : String) : Bool :=
  (ownGet kv k).isSome || protoProps.contains k

/-- `this.kv[key] = value`: an own upsert, except that assigning a string
to `__proto__` hits the inherited accessor and silently stores nothing. -/
def kvSet (kv : List (String × String)) (k v : String) : List (String × String) :=
  if k = "__proto__" then kv else ownSet kv k v

/-- `delete this.kv[key]`: removes the own entry only. -/
def kvDel (kv : List (String × String)) (k : String) : List (String × String) :=
  ownDel kv k

/-- The constructor's load loop `this.kv[result.key] = result.value` over
all persisted rows: a fold of bracket assignment into a fresh object, so
a persisted `__proto__` row is silently not loaded. -/
def loadRows (rows : List (String × String)) : List (String × String) :=
  rows.foldl (fun acc p => kvSet acc p.1 p.2) []

/-! ## Persistence instructions and the worker

The engine communicates with `dbworker.ts` only through `postMessage`; the
worker applies the instructions strictly in the order received and, on
`SHUTDOWN`, closes the store and stops.  We record the engine's posted
messages in a FIFO list and model the worker as a fold over it. -/

inductive Instr where
  | istartup
  | iset (key value : String)
  | idel (key : String)
  | ishutdown
deriving DecidableEq, Repr

/-- The on-disk store: the `key_value` table plus the `meta` rows the
engine reads (`secure` and `secure_test_string`; `version` and timestamps
are never read back and are not modelled). -/
structure DurableStore where
  rows : List (String × String)
  metaSecure : Option Bool
  metaTest : Option String
deriving DecidableEq, Repr

/-- One worker step: `STARTUP` opens the store, `SET` upserts, `DEL`
removes, `SHUTDOWN` is handled in `runWorker`. -/
def applyInstr (s : DurableStore) : Instr → DurableStore
  | Instr.istartup => s
  | Instr.iset k v => { s with rows := ownSet s.rows k v }
  | Instr.idel k => { s with rows := ownDel s.rows k }
  | Instr.ishutdown => s

/-- The worker consumes the FIFO queue in order; `SHUTDOWN` closes the
store handle and ends the worker, so nothing after it is applied. -/
def runWorker (s : DurableStore) : List Instr → DurableStore
  | [] => s
  | Instr.ishutdown :: _ => s
  | i :: rest => runWorker (applyInstr s i) rest

/-! ## The engine -/

structure HareDB where
  kv : List (String × String)
  sk : Option (List Nat)
  prot : ProtState
  msgs : List Instr
deriving DecidableEq, Repr

/-- `this.secure`. -/
def HareDB.secure (e : HareDB) : Bool := e.sk.isSome

/-- `set(key, value)`: encrypt both if secure, record whether the key
pre-existed, mutate the index, post a `SET` instruction, return the flag. -/
def HareDB.set (e : HareDB) (key value : String) : Bool × HareDB :=
  match e.sk with
  | some sk =>
    let r1 := HareDB.encrypt sk key e.prot
    let r2 := HareDB.encrypt sk value r1.2
    let exists0 := kvHas e.kv r1.1
    (exists0, { e with
                kv := kvSet e.kv r1.1 r2.1
                prot := r2.2
                msgs := e.msgs ++ [Instr.iset r1.1 r2.1] })
  | none =>
    let exists0 := kvHas e.kv key
    (exists0, { e with
                kv := kvSet e.kv key value
                msgs := e.msgs ++ [Instr.iset key value] })

/-- `get(key)`: encrypt the key if secure, look up the object (own entry
or prototype chain); a truthy hit is decrypted when secure or returned as
is when not; a miss — or a falsy (empty-string) hit, per JS truthiness —
yields `null`. -/
def HareDB.get (e : HareDB) (key : String) : Except DBError (Option JsValue) × HareDB :=
  match e.sk with
  | some sk =>
    let r1 := HareDB.encrypt sk key e.prot
    match kvGet e.kv r1.1 with
    | some v =>
      if jsTruthy v then
        match HareDB.decrypt sk (jsCoerce v) r1.2 with
        | (Except.ok p, st) => (Except.ok (some (JsValue.jstr p)), { e with prot := st })
        | (Except.error er, st) => (Except.error er, { e with prot := st })
      else (Except.ok none, { e with prot := r1.2 })
    | none => (Except.ok none, { e with prot := r1.2 })
  | none =>
    match kvGet e.kv key with
    | some v => if jsTruthy v then (Except.ok (some v), e) else (Except.ok none, e)
    | none => (Except.ok none, e)

/-- `del(key)`: encrypt the key if secure; only when the key exists does it
mutate the index and post a `DEL` instruction; returns whether it existed. -/
def HareDB.del (e : HareDB) (key : String) : Bool × HareDB :=
  match e.sk with
  | some sk =>
    let r1 := HareDB.encrypt sk key e.prot
    if kvHas e.kv r1.1 then
      (true, { e with
               kv := kvDel e.kv r1.1
               prot := r1.2
               msgs := e.msgs ++ [Instr.idel r1.1] })
    else (false, { e with prot := r1.2 })
  | none =>
    if kvHas e.kv key then
      (true, { e with kv := kvDel e.kv key, msgs := e.msgs ++ [Instr.idel key] })
    else (false, e)

/-- `close()`: post `SHUTDOWN`; if secure, re-enable read-write access and
zero the key buffer (final teardown). -/
def HareDB.close (e : HareDB) : HareDB :=
  { e with
    msgs := e.msgs ++ [Instr.ishutdown]
    prot := if e.sk.isSome then ProtState.readWrite else e.prot }

/-! ## Construction: startup reconciliation

The constructor opens the store directly, creates the tables if missing,
`INSERT OR IGNORE`s the meta rows (so a fresh store records the current
mode and an existing store keeps its recorded one), checks the recorded
`secure` flag against the requested mode, and — in secure mode —
round-trips the `secure_test_string` before loading any `key_value` row
into the index; only then is the worker started.  Secret keys are modelled
at the level of the secured 32-byte buffer contents (a `List Nat`). -/

inductive ConstructError where
  | configurationError
  | wrongKeyError
deriving DecidableEq, Repr

/-- The known plaintext written as `secure_test_string`. -/
def testString : String := "ENCRYPTED TEXT"

/-- A newly created (empty) database file. -/
def emptyStore : DurableStore :=
  { rows := [], metaSecure := none, metaTest := none }

/-- The constructor.  On success it returns the engine (worker started,
`STARTUP` posted) together with the store as left on disk by the direct
handle; on failure it throws before the index is populated and before the
worker exists. -/
def HareDB.construct (s : DurableStore) (secretKey : Option (List Nat)) :
    Except ConstructError (HareDB × DurableStore) :=
  let secure := secretKey.isSome
  let storedSecure := s.metaSecure.getD secure
  let s1 : DurableStore := { s with metaSecure := some storedSecure }
  if secure ≠ storedSecure then Except.error ConstructError.configurationError
  else
    match secretKey with
    | some sk =>
      let r1 := HareDB.encrypt sk testString ProtState.noAccess
      let test := s1.metaTest.getD r1.1
      let s2 : DurableStore := { s1 with metaTest := some test }
      match HareDB.decrypt sk test r1.2 with
      | (Except.error _, _) => Except.error ConstructError.wrongKeyError
      | (Except.ok _, st) =>
        Except.ok ({ kv := loadRows s2.rows, sk := some sk, prot := st,
                     msgs := [Instr.istartup] }, s2)
    | none =>
      Except.ok ({ kv := loadRows s1.rows, sk := none, prot := ProtState.noAccess,
                   msgs := [Instr.istartup] }, s1)

/-! ## The older engine variant

The first `HareDB.ts` (no worker, always secure): its `get` falls back to
querying the still-open database handle on an index miss and caches the
row into the index.  Embedded only to contrast its `get` with the current
read-only one. -/

structure OldHareDB where
  kv : List (String × String)
  db : List (String × String)
  sk : List Nat
deriving DecidableEq, Repr

/-- The older `get`: on an index miss it queries `key_value` through its
own database handle and, on a hit, writes the row into the index before
decrypting. -/
def OldHareDB.get (e : OldHareDB) (key : String) :
    Except DBError (Option JsValue) × OldHareDB :=
  let k := encryptField e.sk key
  match kvGet e.kv k with
  | some v =>
    if jsTruthy v then
      match decryptField e.sk (jsCoerce v) with
      | Except.ok p => (Except.ok (some (JsValue.jstr p)), e)
      | Except.error er => (Except.error er, e)
    else
      match ownGet e.db k with
      | some w =>
        match decryptField e.sk w with
        | Except.ok p => (Except.ok (some (JsValue.jstr p)), { e with kv := kvSet e.kv k w })
        | Except.error er => (Except.error er, { e with kv := kvSet e.kv k w })
      | none => (Except.ok none, e)
  | none =>
    match ownGet e.db k with
    | some w =>
      match decryptField e.sk w with
      | Except.ok p => (Except.ok (some (JsValue.jstr p)), { e with kv := kvSet e.kv k w })
      | Except.error er => (Except.error er, { e with kv := kvSet e.kv k w })
    | none => (Except.ok none, e)

/-- The index key under which `get`/`del` look `key` up: its ciphertext in
secure mode, the key itself otherwise. -/
def lookupKey (e : HareDB) (key : String) : String :=
  match e.sk with
  | some sk => encryptField sk key
  | none => key

/-- The spec's restart-durability experiment: construct, `set(k, v)`,
`close()`, let the worker drain the queue, construct a second engine
against the resulting store, `get(k)`. -/
def restartScenario (s : DurableStore) (secretKey : Option (List Nat))
    (k v : String) : Except ConstructError (Except DBError (Option JsValue)) :=
  match HareDB.construct s secretKey with
  | Except.error er => Except.error er
  | Except.ok (e0, s1) =>
    let e1 := (e0.set k v).2
    let e2 := e1.close
    let s2 := runWorker s1 e2.msgs
    match HareDB.construct s2 secretKey with
    | Except.error er => Except.error er
    | Except.ok (e3, _) => Except.ok (e3.get k).1

/-! ## The claims -/

set_option maxRecDepth 40000

/-! ### Digit round-trip lemmas -/

theorem charDigit_digitChar {d : Nat} (h : d < 10) : charDigit (digitChar d) = d := by
  interval_cases d <;> decide

theorem isDigit_digitChar {d : Nat} (h : d < 10) : (digitChar d).isDigit = true := by
  interval_cases d <;> decide

theorem revDigitsAux_mem_lt {fuel n d : Nat} (h : d ∈ revDigitsAux fuel n) : d < 10 := by
  induction fuel generalizing n with
  | zero =>
    cases n with
    | zero => simp [revDigitsAux] at h
    | succ m => simp [revDigitsAux] at h
  | succ f ih =>
    cases n with
    | zero => simp [revDigitsAux] at h
    | succ m =>
      simp only [revDigitsAux, List.mem_cons] at h
      rcases h with h | h
      · omega
      · exact ih h

theorem ofRevDigits_revDigitsAux {fuel n : Nat} (h : n ≤ fuel) :
    ofRevDigits (revDigitsAux fuel n) = n := by
  induction fuel generalizing n with
  | zero =>
    interval_cases n
    rfl
  | succ f ih =>
    cases n with
    | zero => rfl
    | succ m =>
      have hdiv : (m + 1) / 10 ≤ f := by
        have := Nat.div_lt_self (Nat.succ_pos m) (by norm_num : 1 < 10)
        omega
      simp only [revDigitsAux, ofRevDigits, ih hdiv]
      omega

theorem natToChars_ne_nil (n : Nat) : natToChars n ≠ [] := by
  unfold natToChars
  split
  · simp
  · rename_i h
    intro hrev
    have hlen := congrArg List.length hrev
    simp only [List.length_reverse, List.length_map, List.length_nil] at hlen
    cases n with
    | zero => exact h rfl
    | succ m => simp [revDigitsAux] at hlen

theorem natToChars_all_digit {n : Nat} {c : Char} (h : c ∈ natToChars n) :
    c.isDigit = true := by
  unfold natToChars at h
  split at h
  · simp at h
    subst h
    decide
  · simp only [List.mem_reverse, List.mem_map] at h
    obtain ⟨d, hd, rfl⟩ := h
    exact isDigit_digitChar (revDigitsAux_mem_lt hd)

theorem charsVal_natToChars (n : Nat) : charsVal (natToChars n) = n := by
  unfold natToChars charsVal
  split
  · rename_i h
    subst h
    decide
  · rw [List.map_reverse, List.reverse_reverse, List.map_map]
    have hmap : (revDigitsAux n n).map (charDigit ∘ digitChar) = revDigitsAux n n := by
      have := List.map_congr_left (l := revDigitsAux n n)
        (f := charDigit ∘ digitChar) (g := id)
        (fun d hd => charDigit_digitChar (revDigitsAux_mem_lt hd))
      rw [this, List.map_id]
    rw [hmap, ofRevDigits_revDigitsAux (Nat.le_refl n)]

/-! ### Splitting a digit run off the serialized form -/

theorem takeWhile_dropWhile_append (p : Char → Bool) (xs ys : List Char)
    (hxs : ∀ x ∈ xs, p x = true) (hys : ∀ y ∈ ys.head?, p y = false) :
    (xs ++ ys).takeWhile p = xs ∧ (xs ++ ys).dropWhile p = ys := by
  induction xs with
  | nil =>
    simp only [List.nil_append]
    cases ys with
    | nil => exact ⟨rfl, rfl⟩
    | cons y t =>
      have hy : p y = false := hys y (by simp)
      constructor
      · simp [List.takeWhile, hy]
      · simp [List.dropWhile, hy]
  | cons x xs ih =>
    have hx : p x = true := hxs x (by simp)
    have ihr := ih (fun a ha => hxs a (by simp [ha]))
    constructor
    · simp [List.takeWhile, hx, ihr.1]
    · simp [List.dropWhile, hx, ihr.2]

theorem innerChars_ne_nil {l : List Nat} (h : l ≠ []) : innerChars l ≠ [] := by
  match l with
  | [] => exact absurd rfl h
  | [n] => exact natToChars_ne_nil n
  | a :: b :: t =>
    simp only [innerChars]
    intro hc
    have := congrArg List.length hc
    simp only [List.length_append, List.length_cons, List.length_nil] at this
    omega

theorem length_le_innerChars (l : List Nat) :
    l.length ≤ (innerChars l ++ [']']).length := by
  match l with
  | [] => simp
  | [n] =>
    have := natToChars_ne_nil n
    have hlen : 1 ≤ (natToChars n).length := by
      cases hn : natToChars n with
      | nil => exact absurd hn this
      | cons c cs => simp
    simp only [innerChars, List.length_append, List.length_cons, List.length_nil]
    omega
  | a :: b :: t =>
    have ih := length_le_innerChars (b :: t)
    simp only [innerChars, List.length_append, List.length_cons] at *
    omega

theorem parseNumsAux_innerChars (l : List Nat) (fuel : Nat) (hne : l ≠ [])
    (hfuel : l.length ≤ fuel) : parseNumsAux fuel (innerChars l ++ [']']) = some l := by
  match l with
  | [] => exact absurd rfl hne
  | [a] =>
    cases fuel with
    | zero => simp at hfuel
    | succ f =>
      have hsplit := takeWhile_dropWhile_append Char.isDigit (natToChars a) [']']
        (fun x hx => natToChars_all_digit hx) (by intro y hy; simp at hy; subst hy; decide)
      simp only [innerChars] at *
      simp only [parseNumsAux, hsplit.1, hsplit.2, List.isEmpty_iff]
      rw [if_neg (natToChars_ne_nil a)]
      simp [charsVal_natToChars]
  | a :: b :: t =>
    cases fuel with
    | zero => simp at hfuel
    | succ f =>
      have hrest : innerChars (a :: b :: t) ++ [']'] =
          natToChars a ++ (',' :: (innerChars (b :: t) ++ [']'])) := by
        simp [innerChars]
      have hsplit := takeWhile_dropWhile_append Char.isDigit (natToChars a)
        (',' :: (innerChars (b :: t) ++ [']']))
        (fun x hx => natToChars_all_digit hx) (by intro y hy; simp at hy; subst hy; decide)
      rw [hrest]
      simp only [parseNumsAux, hsplit.1, hsplit.2, List.isEmpty_iff]
      rw [if_neg (natToChars_ne_nil a)]
      have ih := parseNumsAux_innerChars (b :: t) f (by simp) (by
        simp only [List.length_cons] at hfuel ⊢
        omega)
      simp [ih, charsVal_natToChars]

/-- The serialized byte-array form parses back to exactly the byte list:
the model of `Buffer.from(JSON.parse(JSON.stringify(Array.from(b)))) = b`. -/
theorem parseBytes_serializeBytes (l : List Nat) :
    parseBytes (serializeBytes l) = some l := by
  cases l with
  | nil => rfl
  | cons a t =>
    have hne : innerChars (a :: t) ≠ [] := innerChars_ne_nil (by simp)
    have hr : innerChars (a :: t) ++ [']'] ≠ [']'] := by
      intro h
      cases hi : innerChars (a :: t) with
      | nil => exact hne hi
      | cons c cs =>
        rw [hi] at h
        have := congrArg List.length h
        simp at this
    show parseBytes ⟨'[' :: (innerChars (a :: t) ++ [']'])⟩ = some (a :: t)
    simp only [parseBytes, if_neg hr]
    exact parseNumsAux_innerChars (a :: t) _ (by simp) (length_le_innerChars (a :: t))

theorem serializeBytes_ne_empty (l : List Nat) : serializeBytes l ≠ "" := by
  intro h
  have : ('[' :: (innerChars l ++ [']'])) = ([] : List Char) := congrArg String.data h
  simp at this

theorem unmaskBody_maskBody (m n k : List Nat) : unmaskBody (maskBody m n k) n k = m := by
  unfold maskBody unmaskBody
  rw [List.map_map]
  have := List.map_congr_left (l := m)
    (f := (fun b => b - (n.sum + k.sum)) ∘ (fun b => b + (n.sum + k.sum))) (g := id)
    (fun x _ => by simp)
  rw [this, List.map_id]

theorem length_maskBody (m n k : List Nat) : (maskBody m n k).length = m.length := by
  simp [maskBody]

theorem length_tagOf (k n b : List Nat) :
    (tagOf k n b).length = k.length + n.length + b.length + 2 := by
  simp [tagOf]
  omega

theorem length_secretbox_easy (m n k : List Nat) :
    (crypto_secretbox_easy m n k).length = 2 * m.length + k.length + n.length + 2 := by
  simp [crypto_secretbox_easy, length_tagOf, length_maskBody]
  omega

/-- Decryption of a genuine ciphertext under the same nonce and key
recovers the message. -/
theorem open_easy_secretbox_easy (m n k : List Nat) :
    crypto_secretbox_open_easy (crypto_secretbox_easy m n k) n k = some m := by
  unfold crypto_secretbox_open_easy
  have hbl : ((crypto_secretbox_easy m n k).length - k.length - n.length - 2) / 2
      = m.length := by
    rw [length_secretbox_easy]
    omega
  simp only [hbl]
  unfold crypto_secretbox_easy
  rw [List.take_left' (length_maskBody m n k), List.drop_left' (length_maskBody m n k)]
  rw [if_pos rfl, unmaskBody_maskBody]

theorem tagOf_inj_body {k n b1 b2 : List Nat} (h : tagOf k n b1 = tagOf k n b2) :
    b1 = b2 := by
  unfold tagOf at h
  injection h with h1 h2
  have h3 := List.append_cancel_left h2
  injection h3 with h4 h5
  exact List.append_cancel_left h5

/-- Tamper detection: altering any single position of a genuine ciphertext
makes decryption fail (the recomputed tag no longer matches). -/
theorem open_easy_set_ne (m n k : List Nat) (i x : Nat)
    (hne : (crypto_secretbox_easy m n k).set i x ≠ crypto_secretbox_easy m n k) :
    crypto_secretbox_open_easy ((crypto_secretbox_easy m n k).set i x) n k = none := by
  have hbl : (((crypto_secretbox_easy m n k).set i x).length - k.length
      - n.length - 2) / 2 = m.length := by
    rw [List.length_set, length_secretbox_easy]
    omega
  unfold crypto_secretbox_open_easy
  simp only [hbl]
  rcases Nat.lt_or_ge i (maskBody m n k).length with hi | hi
  · have hsplit : (crypto_secretbox_easy m n k).set i x
        = (maskBody m n k).set i x ++ tagOf k n (maskBody m n k) := by
      unfold crypto_secretbox_easy
      exact List.set_append_left i x hi
    rw [hsplit, List.take_left' (by rw [List.length_set, length_maskBody]),
      List.drop_left' (by rw [List.length_set, length_maskBody])]
    rw [if_neg]
    intro hc
    apply hne
    have hb := tagOf_inj_body hc
    rw [hsplit, ← hb]
    rfl
  · have hsplit : (crypto_secretbox_easy m n k).set i x
        = maskBody m n k ++ (tagOf k n (maskBody m n k)).set (i - (maskBody m n k).length) x := by
      unfold crypto_secretbox_easy
      exact List.set_append_right i x hi
    rw [hsplit, List.take_left' (by rw [length_maskBody]),
      List.drop_left' (by rw [length_maskBody])]
    rw [if_neg]
    intro hc
    apply hne
    rw [hsplit, hc]
    rfl

/-- Key isolation: decryption of a genuine ciphertext under any different
key of the same length fails (the tag binds the key). -/
theorem open_easy_wrong_key (m n k ka : List Nat) (hlen : ka.length = k.length)
    (hne : ka ≠ k) :
    crypto_secretbox_open_easy (crypto_secretbox_easy m n k) n ka = none := by
  have hbl : ((crypto_secretbox_easy m n k).length - ka.length - n.length - 2) / 2
      = m.length := by
    rw [length_secretbox_easy, hlen]
    omega
  unfold crypto_secretbox_open_easy
  simp only [hbl]
  unfold crypto_secretbox_easy
  rw [List.take_left' (length_maskBody m n k), List.drop_left' (length_maskBody m n k)]
  rw [if_neg]
  intro hc
  unfold tagOf at hc
  injection hc with h1 h2
  exact hne (List.append_cancel_right h2).symm

theorem bytesToStr_strToBytes (s : String) : bytesToStr (strToBytes s) = s := by
  unfold bytesToStr strToBytes
  rw [List.map_map]
  have hmap : s.data.map (Char.ofNat ∘ Char.toNat) = s.data := by
    have := List.map_congr_left (l := s.data) (f := Char.ofNat ∘ Char.toNat) (g := id)
      (fun c _ => Char.ofNat_toNat c)
    rw [this, List.map_id]
  rw [hmap]

/-- Field-level round trip: decrypt of encrypt under the same key returns
the plaintext. -/
theorem decrypt_encrypt_roundtrip (sk : List Nat) (v : String) (st1 st2 : ProtState) :
    HareDB.decrypt sk (HareDB.encrypt sk v st1).1 st2
      = (Except.ok v, ProtState.noAccess) := by
  unfold HareDB.decrypt HareDB.encrypt
  simp only [parseBytes_serializeBytes, open_easy_secretbox_easy, bytesToStr_strToBytes]

theorem ownGet_ownSet_self (kv : List (String × String)) (k v : String) :
    ownGet (ownSet kv k v) k = some v := by
  induction kv with
  | nil => simp [ownSet, ownGet]
  | cons p rest ih =>
    obtain ⟨ka, va⟩ := p
    by_cases h : ka = k
    · simp [ownSet, ownGet, h]
    · simp [ownSet, ownGet, h, ih]

theorem ownGet_ownDel_self (kv : List (String × String)) (k : String) :
    ownGet (ownDel kv k) k = none := by
  induction kv with
  | nil => simp [ownDel, ownGet]
  | cons p rest ih =>
    obtain ⟨ka, va⟩ := p
    by_cases h : ka = k
    · simp [ownDel, h, ih]
    · simp [ownDel, ownGet, h, ih]

theorem ownGet_append (l1 l2 : List (String × String)) (k : String) :
    ownGet (l1 ++ l2) k
      = match ownGet l1 k with
        | some v => some v
        | none => ownGet l2 k := by
  induction l1 with
  | nil => simp [ownGet]
  | cons p rest ih =>
    obtain ⟨ka, va⟩ := p
    by_cases h : ka = k
    · simp [ownGet, h]
    · simp [ownGet, h, ih]

theorem ownSet_of_ownGet_none {kv : List (String × String)} {k : String} (v : String)
    (h : ownGet kv k = none) : ownSet kv k v = kv ++ [(k, v)] := by
  induction kv with
  | nil => rfl
  | cons p rest ih =>
    obtain ⟨ka, va⟩ := p
    by_cases hk : ka = k
    · simp [ownGet, hk] at h
    · simp only [ownGet, hk, if_false] at h
      simp [ownSet, hk, ih h]

theorem mem_keys_ownSet {kv : List (String × String)} {k v a : String}
    (h : a ∈ (ownSet kv k v).map Prod.fst) :
    a = k ∨ a ∈ kv.map Prod.fst := by
  induction kv with
  | nil =>
    simp [ownSet] at h
    exact Or.inl h
  | cons p rest ih =>
    obtain ⟨ka, va⟩ := p
    by_cases hk : ka = k
    · simp [ownSet, hk] at h
      rcases h with h | h
      · exact Or.inl h
      · exact Or.inr (by simp [h])
    · simp only [ownSet, hk, if_false, List.map_cons, List.mem_cons] at h
      rcases h with h | h
      · exact Or.inr (by simp [h])
      · rcases ih h with h2 | h2
        · exact Or.inl h2
        · exact Or.inr (by simp [h2])

theorem nodup_keys_ownSet {kv : List (String × String)} {k v : String}
    (h : (kv.map Prod.fst).Nodup) : ((ownSet kv k v).map Prod.fst).Nodup := by
  induction kv with
  | nil => simp [ownSet]
  | cons p rest ih =>
    obtain ⟨ka, va⟩ := p
    simp only [List.map_cons, List.nodup_cons] at h
    by_cases hk : ka = k
    · subst hk
      have hred : ownSet ((ka, va) :: rest) ka v = (ka, v) :: rest := by
        simp [ownSet]
      rw [hred]
      simp only [List.map_cons, List.nodup_cons]
      exact ⟨h.1, h.2⟩
    · simp only [ownSet, hk, if_false, List.map_cons, List.nodup_cons]
      refine ⟨?_, ih h.2⟩
      intro hmem
      rcases mem_keys_ownSet hmem with h2 | h2
      · exact hk h2
      · exact h.1 h2

theorem loadRows_go (rows acc : List (String × String))
    (hn : (rows.map Prod.fst).Nodup)
    (hfresh : ∀ p ∈ rows, ownGet acc p.1 = none) :
    rows.foldl (fun a p => kvSet a p.1 p.2) acc
      = acc ++ rows.filter (fun p => !(p.1 == "__proto__")) := by
  induction rows generalizing acc with
  | nil => simp
  | cons p rest ih =>
    obtain ⟨ka, va⟩ := p
    simp only [List.map_cons, List.nodup_cons] at hn
    by_cases hp : ka = "__proto__"
    · have hstep : kvSet acc ka va = acc := by simp [kvSet, hp]
      simp only [List.foldl_cons, hstep]
      rw [ih acc hn.2 (fun q hq => hfresh q (by simp [hq]))]
      simp [List.filter_cons, hp]
    · have hstep : kvSet acc ka va = acc ++ [(ka, va)] := by
        rw [kvSet, if_neg hp, ownSet_of_ownGet_none va (hfresh (ka, va) (by simp))]
      simp only [List.foldl_cons, hstep]
      rw [ih (acc ++ [(ka, va)]) hn.2 ?_]
      · simp [List.filter_cons, hp]
      · intro q hq
        rw [ownGet_append]
        rw [hfresh q (by simp [hq])]
        have hne : q.1 ≠ ka := by
          intro he
          exact hn.1 (he ▸ (List.mem_map_of_mem Prod.fst hq))
        simp [ownGet, Ne.symm hne]

/-- With unique row keys (the table's PRIMARY KEY), the constructor's
load loop yields exactly the rows minus any `__proto__` row. -/
theorem loadRows_eq_filter (rows : List (String × String))
    (hn : (rows.map Prod.fst).Nodup) :
    loadRows rows = rows.filter (fun p => !(p.1 == "__proto__")) := by
  unfold loadRows
  rw [loadRows_go rows [] hn (fun p _ => rfl)]
  simp

theorem ownGet_filter_proto (rows : List (String × String)) (k : String)
    (hk : k ≠ "__proto__") :
    ownGet (rows.filter (fun p => !(p.1 == "__proto__"))) k = ownGet rows k := by
  induction rows with
  | nil => rfl
  | cons p rest ih =>
    obtain ⟨ka, va⟩ := p
    by_cases hp : ka = "__proto__"
    · simp [List.filter_cons, hp, ownGet, Ne.symm hk, ih]
    · by_cases hka : ka = k
      · subst hka
        simp [List.filter_cons, hp, ownGet]
      · simp [List.filter_cons, hp, ownGet, hka, ih]

/-- With unique row keys, a non-`__proto__` key reads back from the loaded
index exactly what the table holds. -/
theorem ownGet_loadRows (rows : List (String × String)) (k : String)
    (hn : (rows.map Prod.fst).Nodup) (hk : k ≠ "__proto__") :
    ownGet (loadRows rows) k = ownGet rows k := by
  rw [loadRows_eq_filter rows hn, ownGet_filter_proto rows k hk]

theorem kvGet_of_ownGet {kv : List (String × String)} {k v : String}
    (h : ownGet kv k = some v) : kvGet kv k = some (JsValue.jstr v) := by
  unfold kvGet
  rw [h]

/-- The serialized ciphertext never collides with the `__proto__` accessor
name (it starts with a bracket). -/
theorem serializeBytes_ne_proto (l : List Nat) : serializeBytes l ≠ "__proto__" := by
  intro h
  have h2 : ('[' :: (innerChars l ++ [']'])) = "__proto__".data := congrArg String.data h
  have h3 : "__proto__".data = '_' :: "_proto__".data := rfl
  rw [h3] at h2
  injection h2 with h4 h5
  exact absurd h4 (by decide)

/-- Claim C1: the claim states that two separate `encrypt` calls on the
same plaintext under the same key yield different ciphertexts thanks to a
fresh per-call nonce.  The code constructs the nonce as
`Buffer.alloc(crypto_secretbox_NONCEBYTES)` — all zero bytes on every
call — so encryption is a deterministic function of key and plaintext:
any two calls (whatever protection state each starts from) return the
identical ciphertext, built from the all-zero nonce.  This refutes the
claim and confirms the spec's flagged nonce-reuse defect. -/
theorem claim_C1_zero_nonce_determinism (sk : List Nat) (p : String)
    (st1 st2 : ProtState) :
    (HareDB.encrypt sk p st1).1 = (HareDB.encrypt sk p st2).1
    ∧ (HareDB.encrypt sk p st1).1
      = serializeBytes (crypto_secretbox_easy (strToBytes p) zeroNonce sk) :=
  ⟨rfl, rfl⟩

/-- Claim C2: the claim states that after `set(k, v)` — for every value,
including the empty string, in both modes — `get(k)` returns `v`, and
`get` returns null only when the key is absent.  Evaluating the code at
the failing input: on an insecure engine, after `set "k" ""` the index
holds `""` under `"k"`, yet `get "k"` returns null, because `get` tests
the stored value for JS truthiness and the empty string is falsy. -/
theorem claim_C2_empty_value_get_null :
    ((((⟨[], none, ProtState.noAccess, []⟩ : HareDB).set "k" "").2.get "k").1
      = Except.ok none)
    ∧ kvGet ((⟨[], none, ProtState.noAccess, []⟩ : HareDB).set "k" "").2.kv "k"
      = some (JsValue.jstr "") :=
  ⟨rfl, rfl⟩

/-- Claim C9: field-level round trip — for every secret key and every
plaintext string, decrypting the encryption under the same key returns
exactly the plaintext. -/
theorem claim_C9_roundtrip (sk : List Nat) (v : String) :
    decryptField sk (encryptField sk v) = Except.ok v := by
  unfold decryptField encryptField
  rw [decrypt_encrypt_roundtrip]

/-- Claim C3: decryption fails closed.  Altering any single byte of a
ciphertext produced by the field encryption makes `decrypt` raise a
`DecryptionError` rather than return plaintext, and decrypting under any
key different from (and of the same length as) the encrypting key fails
the same way. -/
theorem claim_C3_decrypt_fails_closed (sk ska : List Nat) (v : String) (i x : Nat) :
    ((crypto_secretbox_easy (strToBytes v) zeroNonce sk).set i x
        ≠ crypto_secretbox_easy (strToBytes v) zeroNonce sk →
      decryptField sk
        (serializeBytes ((crypto_secretbox_easy (strToBytes v) zeroNonce sk).set i x))
        = Except.error DBError.decryptionError)
    ∧ (ska.length = sk.length → ska ≠ sk →
      decryptField ska (encryptField sk v) = Except.error DBError.decryptionError) := by
  constructor
  · intro hne
    unfold decryptField HareDB.decrypt
    simp only [parseBytes_serializeBytes, open_easy_set_ne _ _ _ _ _ hne]
  · intro hlen hne
    unfold decryptField encryptField HareDB.encrypt HareDB.decrypt
    simp only [parseBytes_serializeBytes, open_easy_wrong_key _ _ _ _ hlen hne]

/-- Witness for C3 at a concrete input: key of 32 one-bytes, plaintext
`"a"`, first ciphertext position overwritten with a fresh byte; and a
second key of 32 two-bytes. -/
theorem claim_C3_witness :
    decryptField (List.replicate 32 1)
      (serializeBytes
        ((crypto_secretbox_easy (strToBytes "a") zeroNonce (List.replicate 32 1)).set 0 7))
      = Except.error DBError.decryptionError
    ∧ decryptField (List.replicate 32 2) (encryptField (List.replicate 32 1) "a")
      = Except.error DBError.decryptionError :=
  ⟨(claim_C3_decrypt_fails_closed (List.replicate 32 1) (List.replicate 32 2) "a" 0 7).1
      (by decide),
    (claim_C3_decrypt_fails_closed (List.replicate 32 1) (List.replicate 32 2) "a" 0 7).2
      (by decide) (by decide)⟩

/-- Claim C4: reopening a store created in secure mode with key `sk` using
any different key `ska` of the same (buffer) length fails construction
with `WrongKeyError`: the preserved `secure_test_string` does not decrypt
under `ska`, and the constructor throws before the `key_value` load, so no
engine (and no populated index) is ever produced. -/
theorem claim_C4_wrong_key (s : DurableStore) (sk ska : List Nat)
    (hsec : s.metaSecure = some true)
    (htest : s.metaTest = some (encryptField sk testString))
    (hlen : ska.length = sk.length) (hne : ska ≠ sk) :
    HareDB.construct s (some ska) = Except.error ConstructError.wrongKeyError := by
  unfold HareDB.construct
  simp only [hsec, htest, Option.isSome_some, Option.getD_some, ne_eq, not_true_eq_false,
    if_false, encryptField, HareDB.encrypt, HareDB.decrypt, parseBytes_serializeBytes,
    open_easy_wrong_key _ _ _ _ hlen hne]

/-- Witness for C4: a store created secure under the all-ones key,
reopened with the all-twos key. -/
theorem claim_C4_witness :
    HareDB.construct
      { rows := [], metaSecure := some true,
        metaTest := some (encryptField (List.replicate 32 1) testString) }
      (some (List.replicate 32 2))
      = Except.error ConstructError.wrongKeyError :=
  claim_C4_wrong_key _ (List.replicate 32 1) (List.replicate 32 2) rfl rfl
    (by decide) (by decide)

/-- Claim C5: a recorded-mode mismatch aborts construction with
`ConfigurationError` in both directions — reopening a store recorded
insecure while supplying a key, and reopening a store recorded secure
without one. -/
theorem claim_C5_mode_mismatch (s : DurableStore) (sk : List Nat) :
    (s.metaSecure = some false →
      HareDB.construct s (some sk) = Except.error ConstructError.configurationError)
    ∧ (s.metaSecure = some true →
      HareDB.construct s none = Except.error ConstructError.configurationError) := by
  constructor
  · intro hsec
    unfold HareDB.construct
    simp [hsec]
  · intro hsec
    unfold HareDB.construct
    simp [hsec]

/-- Witness for C5: both mismatch directions on one-row-free stores. -/
theorem claim_C5_witness :
    HareDB.construct { rows := [], metaSecure := some false, metaTest := none }
      (some (List.replicate 32 1)) = Except.error ConstructError.configurationError
    ∧ HareDB.construct { rows := [], metaSecure := some true, metaTest := none }
      none = Except.error ConstructError.configurationError :=
  ⟨(claim_C5_mode_mismatch _ (List.replicate 32 1)).1 rfl,
    (claim_C5_mode_mismatch { rows := [], metaSecure := some true, metaTest := none }
      (List.replicate 32 1)).2 rfl⟩

/-- Helper: from a no-access start, `decrypt` ends at no-access on every
path (success, authentication failure, and parse failure — the last never
touches the protection state at all). -/
theorem decrypt_noAccess_snd (sk : List Nat) (c : String) :
    (HareDB.decrypt sk c ProtState.noAccess).2 = ProtState.noAccess := by
  unfold HareDB.decrypt
  cases hp : parseBytes c with
  | none => rfl
  | some enc => cases ho : crypto_secretbox_open_easy enc zeroNonce sk <;> simp [ho]

/-- Claim C7: the protection-state invariant.  `encrypt` ends at no-access
from any starting state; `decrypt` started at no-access ends at no-access
on every path, including a failing authentication (the revocation happens
before the success test and the throw); and every public engine operation
(`set`, `get`, `del`) started with the key buffer at no-access leaves it
at no-access — only `close` (final teardown) moves it to read-write. -/
theorem claim_C7_protection_state (sk : List Nat) (v c : String) (st : ProtState)
    (e : HareDB) (k k2 v2 : String) :
    (HareDB.encrypt sk v st).2 = ProtState.noAccess
    ∧ (st = ProtState.noAccess → (HareDB.decrypt sk c st).2 = ProtState.noAccess)
    ∧ (e.prot = ProtState.noAccess →
        ((e.set k2 v2).2.prot = ProtState.noAccess
          ∧ (e.get k).2.prot = ProtState.noAccess
          ∧ (e.del k).2.prot = ProtState.noAccess)) := by
  refine ⟨rfl, ?_, ?_⟩
  · intro h
    subst h
    exact decrypt_noAccess_snd sk c
  · intro h
    obtain ⟨kv, skOpt, prot, msgs⟩ := e
    simp only [HareDB.prot] at h
    subst h
    refine ⟨?_, ?_, ?_⟩
    · cases skOpt <;> rfl
    · cases skOpt with
      | none =>
        unfold HareDB.get
        cases hv : kvGet kv k with
        | none => rfl
        | some v0 =>
          simp only [hv]
          by_cases hvv : jsTruthy v0 = true <;> simp [hvv]
      | some ska =>
        unfold HareDB.get
        simp only
        cases hv : kvGet kv (HareDB.encrypt ska k ProtState.noAccess).1 with
        | none => rfl
        | some v0 =>
          simp only [hv]
          by_cases hvv : jsTruthy v0 = true
          · simp only [hvv, if_true]
            rcases hd : HareDB.decrypt ska (jsCoerce v0)
                (HareDB.encrypt ska k ProtState.noAccess).2
              with ⟨res, st2⟩
            have hst : st2 = ProtState.noAccess := by
              have hh := decrypt_noAccess_snd ska (jsCoerce v0)
              rw [show (HareDB.encrypt ska k ProtState.noAccess).2 = ProtState.noAccess
                from rfl] at hd
              rw [hd] at hh
              exact hh
            cases res <;> simp [hd, hst]
          · simp [hvv, HareDB.encrypt]
    · cases skOpt with
      | none =>
        unfold HareDB.del
        by_cases hh : kvHas kv k <;> simp [hh]
      | some ska =>
        dsimp only [HareDB.del]
        split <;> rfl

/-- Witness for C7: a parse-failing decrypt input and a concrete secure
engine `get`, both ending at no-access. -/
theorem claim_C7_witness :
    (HareDB.decrypt (List.replicate 32 1) "x" ProtState.noAccess).2 = ProtState.noAccess
    ∧ ((⟨[], some (List.replicate 32 1), ProtState.noAccess, []⟩ : HareDB).get "a").2.prot
      = ProtState.noAccess :=
  ⟨(claim_C7_protection_state (List.replicate 32 1) "x" "x" ProtState.noAccess
      ⟨[], some (List.replicate 32 1), ProtState.noAccess, []⟩ "a" "b" "c").2.1 rfl,
    ((claim_C7_protection_state (List.replicate 32 1) "x" "x" ProtState.noAccess
      ⟨[], some (List.replicate 32 1), ProtState.noAccess, []⟩ "a" "b" "c").2.2 rfl).2.1⟩

/-- Claim C8 (amended): `del` decides existence with the JS `in` operator
on the looked-up key (the key's ciphertext in secure mode).  When the `in`
test is false — no own index entry and not an inherited `Object.prototype`
property name — `del` returns false, leaves the index exactly unchanged
and posts nothing; when it is true, `del` returns true, removes the own
entry and posts exactly one `DEL` instruction.  (For a prototype-named key
such as `toString` on an insecure engine the `in` test is true even with
no index entry — see the counterexample.) -/
theorem claim_C8_delete_frame (e : HareDB) (key : String) :
    (kvHas e.kv (lookupKey e key) = false →
      (e.del key).1 = false ∧ (e.del key).2.kv = e.kv ∧ (e.del key).2.msgs = e.msgs)
    ∧ (kvHas e.kv (lookupKey e key) = true →
      (e.del key).1 = true ∧ ownGet (e.del key).2.kv (lookupKey e key) = none
        ∧ (e.del key).2.msgs = e.msgs ++ [Instr.idel (lookupKey e key)]) := by
  obtain ⟨kv, skOpt, prot, msgs⟩ := e
  cases skOpt with
  | none =>
    dsimp only [HareDB.del, lookupKey]
    constructor
    · intro h
      rw [if_neg (by simp [h])]
      exact ⟨rfl, rfl, rfl⟩
    · intro h
      rw [if_pos h]
      exact ⟨rfl, ownGet_ownDel_self kv key, rfl⟩
  | some ska =>
    dsimp only [HareDB.del, lookupKey]
    have hek : (HareDB.encrypt ska key prot).1 = encryptField ska key := rfl
    constructor
    · intro h
      rw [if_neg (by rw [hek]; simp [h])]
      exact ⟨rfl, rfl, rfl⟩
    · intro h
      rw [if_pos (by rw [hek]; exact h)]
      refine ⟨rfl, ?_, ?_⟩
      · dsimp only
        rw [hek]
        exact ownGet_ownDel_self kv (encryptField ska key)
      · dsimp only
        rw [hek]

/-- Counterexample for C8 as stated: on an insecure engine whose index is
empty, `del "toString"` returns true and posts a `DEL` instruction — the
key is absent from the index, but the JS `in` operator sees the inherited
`Object.prototype.toString`. -/
theorem claim_C8_counterexample :
    ownGet ([] : List (String × String)) "toString" = none
    ∧ ((⟨[], none, ProtState.noAccess, []⟩ : HareDB).del "toString").1 = true
    ∧ ((⟨[], none, ProtState.noAccess, []⟩ : HareDB).del "toString").2.msgs
      = [Instr.idel "toString"] :=
  ⟨rfl, rfl, rfl⟩

/-- Witness for the amended C8: a one-row insecure engine, deleting an
absent (non-prototype) and then a present key. -/
theorem claim_C8_witness :
    ((⟨[("a", "1")], none, ProtState.noAccess, []⟩ : HareDB).del "b").1 = false
    ∧ ((⟨[("a", "1")], none, ProtState.noAccess, []⟩ : HareDB).del "b").2.kv
      = [("a", "1")]
    ∧ ((⟨[("a", "1")], none, ProtState.noAccess, []⟩ : HareDB).del "a").1 = true
    ∧ ((⟨[("a", "1")], none, ProtState.noAccess, []⟩ : HareDB).del "a").2.msgs
      = [Instr.idel "a"] := by
  have h1 := (claim_C8_delete_frame ⟨[("a", "1")], none, ProtState.noAccess, []⟩ "b").1
    (by decide)
  have h2 := (claim_C8_delete_frame ⟨[("a", "1")], none, ProtState.noAccess, []⟩ "a").2
    (by decide)
  exact ⟨h1.1, h1.2.1, h2.1, h2.2.2⟩

/-- Claim C10 (implicit): `get` is read-only — for every engine state and
key it leaves the index untouched and posts no instruction to the worker —
whereas the older engine variant's `get` is not: on an index miss it
queries its database handle and caches the row, growing the index
(demonstrated on a concrete old-engine state). -/
theorem claim_C10_get_readonly :
    (∀ (e : HareDB) (key : String),
      (e.get key).2.kv = e.kv ∧ (e.get key).2.msgs = e.msgs)
    ∧ ((OldHareDB.get
        ⟨[], [(encryptField (List.replicate 32 1) "a",
               encryptField (List.replicate 32 1) "1")], List.replicate 32 1⟩
        "a").2.kv
      ≠ (⟨[], [(encryptField (List.replicate 32 1) "a",
                encryptField (List.replicate 32 1) "1")],
          List.replicate 32 1⟩ : OldHareDB).kv) := by
  constructor
  · intro e key
    obtain ⟨kv, skOpt, prot, msgs⟩ := e
    cases skOpt with
    | none =>
      dsimp only [HareDB.get]
      cases hv : kvGet kv key with
      | none => exact ⟨rfl, rfl⟩
      | some v0 =>
        by_cases hvv : jsTruthy v0 = true <;> simp [hvv]
    | some ska =>
      dsimp only [HareDB.get]
      cases hv : kvGet kv (HareDB.encrypt ska key prot).1 with
      | none => exact ⟨rfl, rfl⟩
      | some v0 =>
        simp only [hv]
        by_cases hvv : jsTruthy v0 = true
        · simp only [hvv, if_true]
          rcases hd : HareDB.decrypt ska (jsCoerce v0) (HareDB.encrypt ska key prot).2
            with ⟨res, st2⟩
          cases res <;> simp [hd]
        · simp [hvv]
  · intro h
    have h2 : ownGet ((OldHareDB.get
        ⟨[], [(encryptField (List.replicate 32 1) "a",
               encryptField (List.replicate 32 1) "1")], List.replicate 32 1⟩
        "a").2.kv) (encryptField (List.replicate 32 1) "a")
        = ownGet ([] : List (String × String)) (encryptField (List.replicate 32 1) "a") := by
      rw [h]
    rw [show ownGet ((OldHareDB.get
        ⟨[], [(encryptField (List.replicate 32 1) "a",
               encryptField (List.replicate 32 1) "1")], List.replicate 32 1⟩
        "a").2.kv) (encryptField (List.replicate 32 1) "a")
        = some (encryptField (List.replicate 32 1) "1") from rfl] at h2
    simp [ownGet] at h2

/-- Helper: `encrypt` always leaves the protection state at no-access. -/
theorem encrypt_snd (sk : List Nat) (v : String) (st : ProtState) :
    (HareDB.encrypt sk v st).2 = ProtState.noAccess := rfl

/-- Helper: a ciphertext string is never empty (it starts with a bracket),
so it is always JS-truthy. -/
theorem encrypt_fst_ne_empty (sk : List Nat) (v : String) (st : ProtState) :
    (HareDB.encrypt sk v st).1 ≠ "" :=
  serializeBytes_ne_empty _

/-- Helper: a ciphertext string never collides with the `__proto__`
accessor name, so encrypted index keys are immune to the prototype
chain. -/
theorem encrypt_fst_ne_proto (sk : List Nat) (v : String) (st : ProtState) :
    (HareDB.encrypt sk v st).1 ≠ "__proto__" :=
  serializeBytes_ne_proto _

/-- Claim C6 (amended): restart durability.  If construction on the given
store succeeds — and the store's rows carry unique keys, as the table's
`PRIMARY KEY` guarantees — then after `set(k, v)` and `close()` the worker
applies the queued `SET` before the `SHUTDOWN` (FIFO), and a second engine
constructed against the resulting store returns `v` from `get(k)`,
provided the engine is secure, or `v` is nonempty and `k` is not
`__proto__` (the insecure-mode JS defects recorded in the
counterexample). -/
theorem claim_C6_restart_durability (s : DurableStore) (secretKey : Option (List Nat))
    (k v : String)
    (hrows : (s.rows.map Prod.fst).Nodup)
    (hv : secretKey.isSome = true ∨ (v ≠ "" ∧ k ≠ "__proto__"))
    (hok : ∃ p, HareDB.construct s secretKey = Except.ok p) :
    restartScenario s secretKey k v
      = Except.ok (Except.ok (some (JsValue.jstr v))) := by
  cases secretKey with
  | none =>
    have hvne : v ≠ "" := by
      rcases hv with hv | hv
      · simp at hv
      · exact hv.1
    have hkp : k ≠ "__proto__" := by
      rcases hv with hv | hv
      · simp at hv
      · exact hv.2
    have hss : s.metaSecure.getD false = false := by
      by_contra hss
      have herr : HareDB.construct s none
          = Except.error ConstructError.configurationError := by
        unfold HareDB.construct
        rw [if_pos]
        simp only [Option.isSome_none]
        exact fun hfe => hss hfe.symm
      obtain ⟨p, hc⟩ := hok
      rw [herr] at hc
      cases hc
    have hcon : HareDB.construct s none
        = Except.ok (⟨loadRows s.rows, none, ProtState.noAccess, [Instr.istartup]⟩,
            { s with metaSecure := some false }) := by
      unfold HareDB.construct
      simp [hss]
    unfold restartScenario
    rw [hcon]
    simp only [HareDB.set, HareDB.close, Option.isSome_none, Bool.false_eq_true, if_false,
      runWorker, applyInstr]
    have hcon2 : HareDB.construct
        { s with metaSecure := some false, rows := ownSet s.rows k v } none
        = Except.ok (⟨loadRows (ownSet s.rows k v), none, ProtState.noAccess,
            [Instr.istartup]⟩,
            { s with metaSecure := some false, rows := ownSet s.rows k v }) := by
      unfold HareDB.construct
      simp
    rw [hcon2]
    have hog : ownGet (loadRows (ownSet s.rows k v)) k = some v := by
      rw [ownGet_loadRows _ _ (nodup_keys_ownSet hrows) hkp, ownGet_ownSet_self]
    have htr : jsTruthy (JsValue.jstr v) = true := by
      simp [jsTruthy, hvne]
    simp only [HareDB.get, kvGet_of_ownGet hog, htr, if_true]
  | some sk =>
    have hss : s.metaSecure.getD true = true := by
      by_contra hss
      have herr : HareDB.construct s (some sk)
          = Except.error ConstructError.configurationError := by
        unfold HareDB.construct
        rw [if_pos]
        simp only [Option.isSome_some]
        exact fun hfe => hss hfe.symm
      obtain ⟨p, hc⟩ := hok
      rw [herr] at hc
      cases hc
    rcases hd : HareDB.decrypt sk
        (s.metaTest.getD (HareDB.encrypt sk testString ProtState.noAccess).1)
        (HareDB.encrypt sk testString ProtState.noAccess).2 with ⟨res, st⟩
    cases res with
    | error er =>
      exfalso
      have herr : HareDB.construct s (some sk)
          = Except.error ConstructError.wrongKeyError := by
        unfold HareDB.construct
        simp only [Option.isSome_some, Option.getD_some, hss]
        rw [if_neg (by simp)]
        simp only [hd]
      obtain ⟨p, hc⟩ := hok
      rw [herr] at hc
      cases hc
    | ok w =>
      have hcon : HareDB.construct s (some sk)
          = Except.ok (⟨loadRows s.rows, some sk, st, [Instr.istartup]⟩,
              ⟨s.rows, some true,
                some (s.metaTest.getD
                  (HareDB.encrypt sk testString ProtState.noAccess).1)⟩) := by
        unfold HareDB.construct
        simp only [Option.isSome_some, Option.getD_some, hss]
        rw [if_neg (by simp)]
        simp only [hd]
      unfold restartScenario
      rw [hcon]
      simp only [HareDB.set, HareDB.close, Option.isSome_some, if_true, runWorker,
        applyInstr, encrypt_snd]
      have hcon2 : HareDB.construct
          ⟨ownSet s.rows (HareDB.encrypt sk k st).1
              (HareDB.encrypt sk v ProtState.noAccess).1,
            some true,
            some (s.metaTest.getD
              (HareDB.encrypt sk testString ProtState.noAccess).1)⟩ (some sk)
          = Except.ok (⟨loadRows (ownSet s.rows (HareDB.encrypt sk k st).1
                (HareDB.encrypt sk v ProtState.noAccess).1),
              some sk, st, [Instr.istartup]⟩,
              ⟨ownSet s.rows (HareDB.encrypt sk k st).1
                (HareDB.encrypt sk v ProtState.noAccess).1,
              some true,
              some (s.metaTest.getD
                (HareDB.encrypt sk testString ProtState.noAccess).1)⟩) := by
        unfold HareDB.construct
        simp only [Option.isSome_some, Option.getD_some]
        rw [if_neg (by simp)]
        simp only [hd]
      rw [hcon2]
      have hog : ownGet (loadRows (ownSet s.rows (HareDB.encrypt sk k st).1
            (HareDB.encrypt sk v ProtState.noAccess).1)) (HareDB.encrypt sk k st).1
          = some (HareDB.encrypt sk v ProtState.noAccess).1 := by
        rw [ownGet_loadRows _ _ (nodup_keys_ownSet hrows)
          (encrypt_fst_ne_proto sk k st), ownGet_ownSet_self]
      have htr : jsTruthy (JsValue.jstr (HareDB.encrypt sk v ProtState.noAccess).1)
          = true := by
        simp [jsTruthy, encrypt_fst_ne_empty sk v ProtState.noAccess]
      simp only [HareDB.get, kvGet_of_ownGet hog, htr, if_true, jsCoerce]
      simp only [decrypt_encrypt_roundtrip]

/-- Counterexamples for C6 as stated: on an insecure engine,
`set "a" ""` then close/reopen yields `get "a" = null` (the persisted
empty value is falsy to `get`'s truthiness test); and
`set "__proto__" "x"` then close/reopen yields the inherited
`Object.prototype`, not `"x"` (bracket assignment to `__proto__` stores
nothing in the object, and the persisted row is silently not loaded
back). -/
theorem claim_C6_counterexample :
    (restartScenario emptyStore none "a" "" = Except.ok (Except.ok none)
      ∧ restartScenario emptyStore none "a" ""
        ≠ Except.ok (Except.ok (some (JsValue.jstr ""))))
    ∧ (restartScenario emptyStore none "__proto__" "x"
        = Except.ok (Except.ok (some JsValue.jproto))
      ∧ restartScenario emptyStore none "__proto__" "x"
        ≠ Except.ok (Except.ok (some (JsValue.jstr "x")))) := by
  refine ⟨⟨rfl, ?_⟩, ⟨rfl, ?_⟩⟩
  · intro h
    have h2 := (show restartScenario emptyStore none "a" ""
      = Except.ok (Except.ok none) from rfl).symm.trans h
    simp at h2
  · intro h
    have h2 := (show restartScenario emptyStore none "__proto__" "x"
      = Except.ok (Except.ok (some JsValue.jproto)) from rfl).symm.trans h
    simp at h2

/-- Witness for the amended C6: both modes at a concrete store, key and
value — the all-ones key with `set "a" "1"`, and insecure with a nonempty
value under an ordinary key. -/
theorem claim_C6_witness :
    restartScenario emptyStore (some (List.replicate 32 1)) "a" "1"
      = Except.ok (Except.ok (some (JsValue.jstr "1")))
    ∧ restartScenario emptyStore none "a" "1"
      = Except.ok (Except.ok (some (JsValue.jstr "1"))) :=
  ⟨claim_C6_restart_durability emptyStore (some (List.replicate 32 1)) "a" "1"
      (by simp [emptyStore]) (Or.inl rfl) ⟨_, rfl⟩,
    claim_C6_restart_durability emptyStore none "a" "1"
      (by simp [emptyStore]) (Or.inr (by decide)) ⟨_, rfl⟩⟩
